import Mathlib

/-!
Verification of the edition-generation pipeline of `ai-feed-digest`.

The definitions below are shallow embeddings of the TypeScript sources
`scripts/build-edition.ts` and `src/summarise-with-oc.ts`.  Strings are
modelled by Lean `String` with character-list (`List Char`) primitives that
mirror the JavaScript string operations used by the code (JS `length`/`slice`
count UTF-16 code units, Lean counts code points; all behaviours relevant to
the claims involve only BMP characters where the two coincide).  External
collaborators (the RSS parser, `Date` parsing, `crypto` hashing, URL host
extraction, `html-to-text`, the network and the text-generation service) are
modelled as explicit oracle parameters, exactly at the boundary where the
source calls them.
-/

namespace AiFeedDigest

/-! ## JavaScript string primitives -/

/-- Character class of the JS regex `\s` restricted to the characters that
occur in the pipeline (space, tab, newline, carriage return, form feed,
vertical tab, no-break space). -/
def isJsSpace (c : Char) : Bool :=
  c = ' ' || c = '\t' || c = '\n' || c = '\r' || c = '\x0b' || c = '\x0c' || c = ' '

/-- Drop leading JS whitespace from a character list. -/
def dropWsLeft (l : List Char) : List Char := l.dropWhile isJsSpace

/-- JS `String.prototype.trim`: strip whitespace from both ends. -/
def jsTrimList (l : List Char) : List Char :=
  ((l.dropWhile isJsSpace).reverse.dropWhile isJsSpace).reverse

/-- JS `String.prototype.trim` on `String`. -/
def jsTrim (s : String) : String := ⟨jsTrimList s.data⟩

/-- JS `value.slice(0, n)` / `Array.prototype.slice(0, n)` on a string. -/
def strTake (s : String) (n : Nat) : String := ⟨s.data.take n⟩

/-- JS `value.length` on a string. -/
def strLen (s : String) : Nat := s.data.length

/-- Split a character list at every occurrence of the character `sep`
(JS `String.prototype.split` with a single-character separator). -/
def splitListOn (sep : Char) : List Char → List (List Char)
  | [] => [[]]
  | c :: rest =>
    let tail := splitListOn sep rest
    if c = sep then [] :: tail
    else
      match tail with
      | [] => [[c]]
      | t :: ts => (c :: t) :: ts

/-- JS `s.split(sep)` for a one-character separator, on `String`. -/
def splitStr (sep : Char) (s : String) : List String :=
  (splitListOn sep s.data).map (fun l => ⟨l⟩)

/-! ## `enforceCharLimit` (src/summarise-with-oc.ts, claim C9) -/

/-- The character class `[.!?]` of the sentence-boundary regex. -/
def sentencePunct (c : Char) : Bool := c = '.' || c = '!' || c = '?'

/-- Whether the regex fragment `[.!?](?=\s|$)` matches at the head of the
character list: a sentence-punctuation character followed by whitespace or
the end of the string. -/
def boundaryAt : List Char → Bool
  | [] => false
  | [c] => sentencePunct c
  | c :: d :: _ => sentencePunct c && isJsSpace d

/-- Whether the lookahead `.*[.!?](?=\s|$)` matches somewhere in the list,
where `.` does not cross a newline (JS regex without the `s` flag): a
sentence boundary reachable through non-newline characters. -/
def hasSameLineBoundary : List Char → Bool
  | [] => false
  | c :: rest => boundaryAt (c :: rest) || (decide (c ≠ '\n') && hasSameLineBoundary rest)

/-- Result of `soft.match(/[.!?](?=\s|$)(?!.*[.!?](?=\s|$))/)`: the first
position holding a sentence boundary with no later boundary on the same
line; the match value is the single punctuation character. -/
def matchBoundaryChar : List Char → Option Char
  | [] => none
  | c :: rest =>
    if boundaryAt (c :: rest) && !hasSameLineBoundary rest then some c
    else matchBoundaryChar rest

/-- Accumulator for `lastIndexOf`: scan the list keeping the last index at
which the character occurs (JS returns `-1` when absent). -/
def lastIndexOfCharAux (ch : Char) : List Char → Nat → Int → Int
  | [], _, best => best
  | c :: rest, i, best => lastIndexOfCharAux ch rest (i + 1) (if c = ch then (i : Int) else best)

/-- JS `soft.lastIndexOf(ch)` for a single character. -/
def lastIndexOfChar (l : List Char) (ch : Char) : Int := lastIndexOfCharAux ch l 0 (-1)

/-- `enforceCharLimit` from src/summarise-with-oc.ts, with the local
`soft = value.slice(0, maxChars)` inlined as `strTake value maxChars`.
`Math.floor(maxChars * 0.6)` is rendered as `6 * maxChars / 10`, with which
it agrees on the integer limits the configuration admits. -/
def enforceCharLimit (value : String) (maxChars : Nat) : String :=
  if strLen value ≤ maxChars then value
  else
    match matchBoundaryChar (strTake value maxChars).data with
    | some ch =>
      if (6 * maxChars : Int) / 10 ≤ lastIndexOfChar (strTake value maxChars).data ch then
        jsTrim (strTake (strTake value maxChars)
          ((lastIndexOfChar (strTake value maxChars).data ch).toNat + 1))
      else value
    | none => value

/-! ## Stable sorting

`Array.prototype.sort` with a consistent comparator is a stable sort
(ECMAScript 2019 and later, as run by Node).  A stable sort is modelled by
left-to-right insertion: `keep b a = true` means the already-placed element
`b` stays in front of the newly inserted element `a` (the JS comparator
reported `cmp(b, a) ≤ 0`), so elements that compare equal keep their
original relative order. -/

def stableInsert (keep : α → α → Bool) (a : α) : List α → List α
  | [] => [a]
  | b :: bs => if keep b a then b :: stableInsert keep a bs else a :: b :: bs

/-- The result of JS `array.sort(cmp)` for the total preorder encoded by `keep`. -/
def stableSort (keep : α → α → Bool) (l : List α) : List α :=
  l.foldl (fun acc x => stableInsert keep x acc) []

/-! ## Ingestion and freshness filtering (scripts/build-edition.ts, claims C2, C10) -/

/-- An item as produced by `fetchFeedItems`. -/
structure FeedItem where
  title : String
  url : String
  publishedAt : String
  rawContent : String
deriving DecidableEq, Repr

/-- One entry of the feed document returned by the external `rss-parser`
collaborator; every field the mapping in `fetchFeedItems` reads. -/
structure RawEntry where
  title : Option String
  link : Option String
  guid : Option String
  isoDate : Option String
  pubDate : Option String
  contentEncoded : Option String
  content : Option String
  contentSnippet : Option String
deriving DecidableEq, Repr

/-- The per-entry mapping of `fetchFeedItems`; `now` models
`new Date().toISOString()`. -/
def feedItemOfEntry (now : String) (e : RawEntry) : FeedItem :=
  { title := e.title.getD "Untitled"
    url := e.link.getD (e.guid.getD "")
    publishedAt := e.isoDate.getD (e.pubDate.getD now)
    rawContent := e.contentEncoded.getD (e.content.getD (e.contentSnippet.getD "")) }

/-- `fetchFeedItems`: the network fetch and feed parse are the external
`rss-parser` collaborator supplying `entries`; the embedded part is the
field mapping. -/
def fetchFeedItems (entries : List RawEntry) (now : String) : List FeedItem :=
  entries.map (feedItemOfEntry now)

/-- `parsePublishedAt`: rejects falsy (empty) values, then defers to the
external `new Date(...)` parser `dp`, which returns `none` for an invalid
date (`NaN` time value) and otherwise the epoch-millisecond value. -/
def parsePublishedAt (dp : String → Option Int) (value : String) : Option Int :=
  if value = "" then none else dp value

/-- Sort key of the comparator in `pickFreshItems`: `date?.getTime() ?? 0`. -/
def pickSortKey (dp : String → Option Int) (i : FeedItem) : Int :=
  (parsePublishedAt dp i.publishedAt).getD 0

/-- The descending stable sort `[...items].sort((a, b) => bTime - aTime)`
at the top of `pickFreshItems`. -/
def sortByDateDesc (dp : String → Option Int) (items : List FeedItem) : List FeedItem :=
  stableSort (fun b a => decide (pickSortKey dp a ≤ pickSortKey dp b)) items

/-- The `for..of` loop of `pickFreshItems` over the sorted items; `count` is
`fresh.length` accumulated so far and the returned list is what the loop
still appends.  `fp` models `fingerprintUrl` (a sha1 hex digest, an external
crypto primitive) and `seen` the seen cache. -/
def pickScan (dp : String → Option Int) (fp : String → String) (seen : List String)
    (start endT : Int) (maxN : Nat) (ig : Bool) :
    List FeedItem → Nat → List FeedItem
  | [], _ => []
  | item :: rest, count =>
    if item.url = "" then pickScan dp fp seen start endT maxN ig rest count
    else
      match parsePublishedAt dp item.publishedAt with
      | some t =>
        if endT ≤ t then pickScan dp fp seen start endT maxN ig rest count
        else if t < start then []
        else if ig = false ∧ fp item.url ∈ seen then
          pickScan dp fp seen start endT maxN ig rest count
        else
          item :: (if maxN ≤ count + 1 then []
            else pickScan dp fp seen start endT maxN ig rest (count + 1))
      | none =>
        if ig = false ∧ fp item.url ∈ seen then
          pickScan dp fp seen start endT maxN ig rest count
        else
          item :: (if maxN ≤ count + 1 then []
            else pickScan dp fp seen start endT maxN ig rest (count + 1))

/-- `pickFreshItems` from scripts/build-edition.ts: sort descending by
publish time, then run the window/seen/cap scan. -/
def pickFreshItems (dp : String → Option Int) (fp : String → String) (seen : List String)
    (start endT : Int) (maxN : Nat) (ig : Bool) (items : List FeedItem) : List FeedItem :=
  pickScan dp fp seen start endT maxN ig (sortByDateDesc dp items) 0

/-- Date parser used by the C2 witness and counterexample. -/
def dpC2 : String → Option Int :=
  fun s => if s = "D50" then some 50 else if s = "D150" then some 150 else none

/-- In-window item used by the C2 witness. -/
def itemFresh : FeedItem := ⟨"fresh", "u-fresh", "D150", "body"⟩

/-- Stale item (older than the window) used by the C2 counterexample. -/
def itemStale : FeedItem := ⟨"stale", "u-stale", "D50", "body"⟩

/-- Unparsable-timestamp item used by the C2 counterexample. -/
def itemNoDate : FeedItem := ⟨"nodate", "u-nodate", "not-a-date", "body"⟩

/-- A raw entry with no link and no guid, for the C10 witness. -/
def entryNoLink : RawEntry :=
  ⟨some "t", none, none, some "D150", none, none, none, some "body"⟩

/-! ## Deterministic ordering of narrative items
(`summariseStories`, scripts/build-edition.ts, claim C3) -/

/-- `SummariseResult` from src/lib/types.ts; `translatedTitle` is the extra
field `summariseWithOC` attaches on success. -/
structure SummariseResult where
  abstract : String
  bullets : List String
  via : String
  engine : Option String
  translatedTitle : Option String
deriving DecidableEq, Repr

/-- The part of a `PendingStory` that `summariseStories` reads. -/
structure PStory where
  feedTitle : String
  title : String
  url : String
  publishedAt : String
deriving DecidableEq, Repr

/-- `EditionNarrativeItem` from src/lib/types.ts. -/
structure NarrativeItem where
  feed : String
  title : String
  url : String
  publishedAt : String
  summary : SummariseResult
deriving DecidableEq, Repr

/-- The narrative item pushed by `summariseStories` for one story.
`summaryOf` is the (per-story, fixed) result of `summariseWithOC`, and
`displayTitleOf` the translated-title display computation (it calls the
external `detectLanguage`); the `url` field is the story URL by
construction. -/
def toNarrative (summaryOf : PStory → SummariseResult)
    (displayTitleOf : PStory → SummariseResult → String) (s : PStory) : NarrativeItem :=
  { feed := s.feedTitle
    title := displayTitleOf s (summaryOf s)
    url := s.url
    publishedAt := s.publishedAt
    summary := summaryOf s }

/-- Lookup in `new Map(stories.map((s, i) => [s.item.url, i]))`: later
entries overwrite earlier ones, so the value is the LAST index carrying the
url. -/
def lastUrlIdxAux (u : String) : List PStory → Nat → Option Nat
  | [], _ => none
  | s :: rest, i =>
    match lastUrlIdxAux u rest (i + 1) with
    | some j => some j
    | none => if s.url = u then some i else none

/-- `orderMap.get(u)!` of `summariseStories` (`0` stands for the unreachable
absent case of the non-null assertion). -/
def orderMapGet (stories : List PStory) (u : String) : Nat :=
  (lastUrlIdxAux u stories 0).getD 0

/-- The narrative list produced by `summariseStories` when the concurrency
pool completes the stories in the order `completed` (some permutation of
`stories`): one push per completion, then the final stable ascending sort
`narrativeStories.sort((a, b) => orderMap.get(a.url)! - orderMap.get(b.url)!)`. -/
def summariseStoriesOrder (summaryOf : PStory → SummariseResult)
    (displayTitleOf : PStory → SummariseResult → String)
    (stories completed : List PStory) : List NarrativeItem :=
  stableSort
    (fun b a => decide (orderMapGet stories b.url ≤ orderMapGet stories a.url))
    (completed.map (toNarrative summaryOf displayTitleOf))

/-- Summary function used in the C3 witness and counterexample. -/
def sumC3 : PStory → SummariseResult :=
  fun _ => ⟨"a", ["b1", "b2", "b3"], "opencode", none, none⟩

/-- Display-title function used in the C3 witness and counterexample. -/
def titleC3 : PStory → SummariseResult → String := fun s _ => s.title

/-- First story of the C3 duplicate-URL counterexample. -/
def storyA : PStory := ⟨"feed-one", "title-one", "u", "p1"⟩

/-- Second story of the C3 duplicate-URL counterexample, same URL. -/
def storyB : PStory := ⟨"feed-two", "title-two", "u", "p2"⟩

/-- First story of the C3 witness (distinct URLs). -/
def storyC : PStory := ⟨"feed-one", "title-one", "u1", "p1"⟩

/-- Second story of the C3 witness (distinct URLs). -/
def storyD : PStory := ⟨"feed-two", "title-two", "u2", "p2"⟩

/-! ## Hydration scheduler (hydrateArticleTexts, scripts/build-edition.ts, claim C4) -/

/-- `HYDRATE_CONCURRENCY`: global in-flight cap; env override accepted when
at least 1, clamped to 12, default 6. -/
def HYDRATE_CONCURRENCY (env : Option Int) : Nat :=
  match env with
  | some v => if 1 ≤ v then (min v 12).toNat else 6
  | none => 6

/-- `HYDRATE_PER_DOMAIN_CONCURRENCY`: per-host in-flight cap; env override
accepted when at least 1, clamped to 3, default 1. -/
def HYDRATE_PER_DOMAIN_CONCURRENCY (env : Option Int) : Nat :=
  match env with
  | some v => if 1 ≤ v then (min v 3).toNat else 1
  | none => 1

/-- Scheduler state of `hydrateArticleTexts`: the stories still queued and
the multiset of stories currently in flight.  The source's counters
`globalActive` and `perDomainActive` are the derived lengths below. -/
structure HydrateState where
  queue : List PStory
  inflight : List PStory
deriving DecidableEq, Repr

/-- The `globalActive` counter. -/
def globalActive (s : HydrateState) : Nat := s.inflight.length

/-- The `perDomainActive.get(host) || 0` counter, derived from the in-flight
multiset; `hostOf` models `new URL(url).hostname` (with the catch branch
yielding "unknown"). -/
def hostCount (hostOf : String → String) (inflight : List PStory) (host : String) : Nat :=
  (inflight.filter (fun st => decide (hostOf st.url = host))).length

/-- The queue scan of `nextEligibleIndex` plus the `queue.splice(idx, 1)`:
the first queued story whose host is under the per-host cap, together with
the remaining queue. -/
def findEligible (hostOf : String → String) (H : Nat) (inflight : List PStory) :
    List PStory → Option (PStory × List PStory)
  | [] => none
  | st :: rest =>
    if hostCount hostOf inflight (hostOf st.url) < H then some (st, rest)
    else
      match findEligible hostOf H inflight rest with
      | some (s, r) => some (s, st :: r)
      | none => none

/-- One scheduler transition.  `dispatch` fires only when the global counter
is below `G` (`nextEligibleIndex` returns `-1` otherwise) and the scan finds
a story whose host is below `H`; `complete` finishes an arbitrary in-flight
fetch (success or failure alike), removing it from the in-flight multiset —
which is the decrement of both counters in the source's `finally` block. -/
inductive HydrateStep (hostOf : String → String) (G H : Nat) :
    HydrateState → HydrateState → Prop
  | dispatch (s : HydrateState) (st : PStory) (rest : List PStory)
      (hglobal : globalActive s < G)
      (hfind : findEligible hostOf H s.inflight s.queue = some (st, rest)) :
      HydrateStep hostOf G H s ⟨rest, st :: s.inflight⟩
  | complete (s : HydrateState) (st : PStory) (l₁ l₂ : List PStory)
      (hin : s.inflight = l₁ ++ st :: l₂) :
      HydrateStep hostOf G H s ⟨s.queue, l₁ ++ l₂⟩

/-- States reachable by the scheduler from the initial state (every story
queued, none in flight). -/
inductive HydrateReach (hostOf : String → String) (G H : Nat) (stories : List PStory) :
    HydrateState → Prop
  | init : HydrateReach hostOf G H stories ⟨stories, []⟩
  | step {s t : HydrateState} : HydrateReach hostOf G H stories s →
      HydrateStep hostOf G H s t → HydrateReach hostOf G H stories t

/-- Host extractor used in the C4 witness: every URL maps to one host. -/
def hostOfC4 : String → String := fun _ => "h"

/-- First story of the C4 witness. -/
def hstoryA : PStory := ⟨"feed-a", "title-a", "u-a", "p"⟩

/-- Second story of the C4 witness, same host. -/
def hstoryB : PStory := ⟨"feed-b", "title-b", "u-b", "p"⟩

/-! ## Summarisation (src/summarise-with-oc.ts, claims C5, C6) -/

/-- `SummariseInput` from src/lib/types.ts. -/
structure SummariseInput where
  title : String
  url : String
  text : String
  maxChars : Nat
  minChars : Nat
deriving DecidableEq, Repr

/-- The value produced by `parseOpenCodeOutput` (before `via`/`engine` are
attached). -/
structure ParsedSummary where
  abstract : String
  bullets : List String
  translatedTitle : Option String
deriving DecidableEq, Repr

/-- Case normalisation for the case-insensitive label regexes; JS `/i`
case-folds the accented letters appearing in the keywords. -/
def charUp (c : Char) : Char :=
  if c = 'é' then 'É' else if c = 'è' then 'È' else c.toUpper

/-- Match a fixed upper-case keyword case-insensitively at the head of the
input, returning the remainder. -/
def matchKeywordCI : List Char → List Char → Option (List Char)
  | [], l => some l
  | _ :: _, [] => none
  | p :: ps, c :: cs => if charUp c = p then matchKeywordCI ps cs else none

/-- Try each keyword of the alternation in order. -/
def firstKeywordMatch (kws : List (List Char)) (l : List Char) : Option (List Char) :=
  match kws with
  | [] => none
  | k :: ks =>
    match matchKeywordCI k l with
    | some r => some r
    | none => firstKeywordMatch ks l

/-- The separator class `[:\-–—]` of the label regexes. -/
def labelSep (c : Char) : Bool := c = ':' || c = '-' || c = '–' || c = '—'

/-- Match `\s*(KW1|KW2|…)\s*[:\-–—]` and return the remainder after the
separator. -/
def matchLabelCore (kws : List (List Char)) (l : List Char) : Option (List Char) :=
  match firstKeywordMatch kws (l.dropWhile isJsSpace) with
  | none => none
  | some rest =>
    match rest.dropWhile isJsSpace with
    | c :: rest2 => if labelSep c then some rest2 else none
    | [] => none

/-- Match the full label pattern `^(\*\*|\*)?\s*(KWS)\s*[:\-–—]` (the starred
alternatives are tried first, as the regex alternation does) and return the
remainder after the separator. -/
def stripLabel (kws : List (List Char)) : List Char → Option (List Char)
  | '*' :: '*' :: rest => matchLabelCore kws rest
  | '*' :: rest => matchLabelCore kws rest
  | l => matchLabelCore kws l

/-- Keywords of the title label `(TITLE|TITRE)`. -/
def kwTitle : List (List Char) := [['T','I','T','L','E'], ['T','I','T','R','E']]

/-- Keywords of the abstract label `(ABSTRACT|RÉSUMÉ|RESUME|SYNTHÈSE)`. -/
def kwAbstract : List (List Char) :=
  [['A','B','S','T','R','A','C','T'], ['R','É','S','U','M','É'],
   ['R','E','S','U','M','E'], ['S','Y','N','T','H','È','S','E']]

/-- `line.replace(labelRegexWithTrailingWs, "").trim()`: strip the label when
it matches (including the trailing `\s*` of the replace pattern), otherwise
leave the line, then trim. -/
def stripLabelValue (kws : List (List Char)) (s : String) : String :=
  match stripLabel kws s.data with
  | some rest => jsTrim ⟨rest.dropWhile isJsSpace⟩
  | none => jsTrim s

/-- `/^[-*•]\s*/.test(line)`: the `\s*` is possibly empty, so only the first
character matters. -/
def isBulletish (l : List Char) : Bool :=
  match l with
  | c :: _ => c = '-' || c = '*' || c = '•'
  | [] => false

/-- `/^(?:[-*•]|\d+\.)\s+/.test(line)`: one marker character or a digit run
followed by a dot, then at least one whitespace. -/
def isBulletLine (l : List Char) : Bool :=
  match l with
  | [] => false
  | c :: rest =>
    if c = '-' || c = '*' || c = '•' then
      match rest with
      | d :: _ => isJsSpace d
      | [] => false
    else if c.isDigit then
      match rest.dropWhile Char.isDigit with
      | '.' :: d :: _ => isJsSpace d
      | _ => false
    else false

/-- `line.replace(/^(?:[-*•]|\d+\.)\s+/, "")`: drop the marker and the
whitespace run after it (identity when the pattern does not match). -/
def stripBulletMarker (l : List Char) : List Char :=
  match l with
  | [] => []
  | c :: rest =>
    if c = '-' || c = '*' || c = '•' then
      match rest with
      | d :: _ => if isJsSpace d then rest.dropWhile isJsSpace else l
      | [] => l
    else if c.isDigit then
      match rest.dropWhile Char.isDigit with
      | '.' :: rest2 =>
        match rest2 with
        | d :: _ => if isJsSpace d then rest2.dropWhile isJsSpace else l
        | [] => l
      | _ => l
    else l

/-- Head-of-list whitespace test. -/
def headIsWs (l : List Char) : Bool :=
  match l with
  | d :: _ => isJsSpace d
  | [] => false

/-- Head-of-accumulator sentence-punctuation test (the lookbehind
`(?<=[\.!?])`). -/
def prevPunct (acc : List Char) : Bool :=
  match acc with
  | p :: _ => sentencePunct p
  | [] => false

/-- Worker of `split(/(?<=[\.!?])\s+/)`: a whitespace run preceded by
sentence punctuation separates segments.  The Boolean flag is true while the
separator whitespace run is being consumed. -/
def splitSentencesGo : Bool → List Char → List Char → List (List Char)
  | _, [], acc => [acc.reverse]
  | true, c :: rest, acc =>
    if isJsSpace c then splitSentencesGo true rest acc
    else splitSentencesGo false rest (c :: acc)
  | false, c :: rest, acc =>
    if isJsSpace c && prevPunct acc then
      acc.reverse :: splitSentencesGo true rest []
    else splitSentencesGo false rest (c :: acc)

/-- JS `text.split(/(?<=[\.!?])\s+/)`. -/
def splitSentences (l : List Char) : List (List Char) := splitSentencesGo false l []

/-- The separator class `[;,:–—\-]` of the clause split. -/
def clauseSep (c : Char) : Bool :=
  c = ';' || c = ',' || c = ':' || c = '–' || c = '—' || c = '-'

/-- Worker of `split(/[;,:–—\-]\s+/)`: one separator character followed by a
whitespace run separates segments.  The Boolean flag is true while the
separator whitespace run is being consumed. -/
def splitClausesGo : Bool → List Char → List Char → List (List Char)
  | _, [], acc => [acc.reverse]
  | true, c :: rest, acc =>
    if isJsSpace c then splitClausesGo true rest acc
    else splitClausesGo false rest (c :: acc)
  | false, c :: rest, acc =>
    if clauseSep c && headIsWs rest then
      acc.reverse :: splitClausesGo true rest []
    else splitClausesGo false rest (c :: acc)

/-- JS `abstract.split(/[;,:–—\-]\s+/)`. -/
def splitClauses (l : List Char) : List (List Char) := splitClausesGo false l []

/-- Worker of `split(/;+/)`: a run of semicolons separates segments.  The
Boolean flag is true while the semicolon run is being consumed. -/
def splitSemisGo : Bool → List Char → List Char → List (List Char)
  | _, [], acc => [acc.reverse]
  | true, c :: rest, acc =>
    if c = ';' then splitSemisGo true rest acc
    else splitSemisGo false rest (c :: acc)
  | false, c :: rest, acc =>
    if c = ';' then acc.reverse :: splitSemisGo true rest []
    else splitSemisGo false rest (c :: acc)

/-- JS `joined.split(/;+/)`. -/
def splitSemis (l : List Char) : List (List Char) := splitSemisGo false l []

/-- `seg.replace(/^[0-9]+[\).:-]\s*/, "")`: digits, one of `) . : -`, then
optional whitespace, stripped when present. -/
def stripNumberMark (l : List Char) : List Char :=
  match l with
  | [] => []
  | c :: _ =>
    if c.isDigit then
      match l.dropWhile Char.isDigit with
      | d :: rest2 =>
        if d = ')' || d = '.' || d = ':' || d = '-' then rest2.dropWhile isJsSpace else l
      | [] => l
    else l

/-- Per-line bullet normalisation of `normaliseModelOutput`:
`line.replace(/^\s*[•*]\s+/, '- ')`. -/
def normaliseBulletLine (l : List Char) : List Char :=
  match l.dropWhile isJsSpace with
  | c :: d :: rest2 =>
    if (c = '•' || c = '*') && isJsSpace d then
      '-' :: ' ' :: (d :: rest2).dropWhile isJsSpace
    else l
  | _ => l

/-- `normaliseModelOutput` from src/summarise-with-oc.ts: drop carriage
returns, normalise `•`/`*` bullet markers to `- `, trim. -/
def normaliseModelOutput (raw : String) : String :=
  jsTrim ⟨List.intercalate ['\n']
    ((splitListOn '\n' (raw.data.filter (fun c => decide (c ≠ '\r')))).map normaliseBulletLine)⟩

/-- `raw.split("\n").map(trim).filter(nonempty)` at the top of
`parseOpenCodeOutput`. -/
def linesOf (raw : String) : List String :=
  ((splitStr '\n' raw).map jsTrim).filter (fun s => decide (s ≠ ""))

/-- `lines.splice(i, 1)`: the removed element and the remaining list. -/
def spliceAt : List String → Nat → Option (String × List String)
  | [], _ => none
  | x :: xs, 0 => some (x, xs)
  | x :: xs, n + 1 =>
    match spliceAt xs n with
    | some (y, r) => some (y, x :: r)
    | none => none

/-- Title extraction step of `parseOpenCodeOutput`. -/
def extractTitle (lines : List String) : Option String × List String :=
  match lines.findIdx? (fun s => (stripLabel kwTitle s.data).isSome) with
  | some i =>
    match spliceAt lines i with
    | some (line, rest) => (some (stripLabelValue kwTitle line), rest)
    | none => (none, lines)
  | none => (none, lines)

/-- Abstract-line extraction step: the labelled line is spliced out, else the
first line is shifted off; `none` when no line remains (the "missing a
summary line" throw). -/
def extractAbstract (lines : List String) : Option (String × List String) :=
  match lines.findIdx? (fun s => (stripLabel kwAbstract s.data).isSome) with
  | some i =>
    match spliceAt lines i with
    | some (line, rest) => some (stripLabelValue kwAbstract line, rest)
    | none => none
  | none =>
    match lines with
    | [] => none
    | line :: rest => some (stripLabelValue kwAbstract line, rest)

/-- Empty-abstract fallback: when the stripped abstract is empty, splice out
the first non-bulletish line and use it; `none` when none exists (the
"empty summary line" throw). -/
def fallbackAbstract (abstract : String) (lines : List String) :
    Option (String × List String) :=
  if abstract ≠ "" then some (abstract, lines)
  else
    match lines.findIdx? (fun s => !isBulletish s.data) with
    | some i =>
      match spliceAt lines i with
      | some (line, rest) => if line = "" then none else some (line, rest)
      | none => none
    | none => none

/-- `lines.join(' ')`. -/
def joinSpace (lines : List String) : List Char :=
  List.intercalate [' '] (lines.map String.data)

/-- Bullet-marker lines, stripped, trimmed and kept when nonempty. -/
def bulletsFromMarkers (lines : List String) : List String :=
  ((lines.filter (fun s => isBulletLine s.data)).map
    (fun s => jsTrim ⟨stripBulletMarker s.data⟩)).filter (fun s => decide (s ≠ ""))

/-- Semicolon-separated fallback: only when no bullets were found and the
joined line contains a semicolon; each segment is trimmed, stripped of a
leading number marker and pushed when nonempty. -/
def addSemiSegs (lines : List String) (bs : List String) : List String :=
  if bs = [] then
    if ';' ∈ joinSpace lines then
      bs ++ (((splitSemis (joinSpace lines)).map
        (fun seg => (⟨stripNumberMark (jsTrimList seg)⟩ : String))).filter
          (fun s => decide (s ≠ "")))
    else bs
  else bs

/-- Push of the residual-line mining loop: nonempty, not already present,
stop at three. -/
def pushSeg (bs : List String) (x : String) : List String :=
  if 3 ≤ bs.length then bs
  else if x ≠ "" ∧ x ∉ bs then bs ++ [x] else bs

/-- Push of the abstract-sentence loop: not already present, stop at three. -/
def pushIncl (bs : List String) (x : String) : List String :=
  if 3 ≤ bs.length then bs
  else if x ∉ bs then bs ++ [x] else bs

/-- Push of the clause loop: unconditional, stop at three. -/
def pushCap (bs : List String) (x : String) : List String :=
  if 3 ≤ bs.length then bs else bs ++ [x]

/-- Mine sentence segments of the residual (non-bullet) lines. -/
def addResidualSegs (lines : List String) (bs : List String) : List String :=
  List.foldl pushSeg bs
    ((lines.filter (fun s => !isBulletLine s.data)).flatMap
      (fun s => (splitSentences s.data).map (fun l => (⟨jsTrimList l⟩ : String))))

/-- Mine sentence segments of the abstract itself. -/
def addAbstractSegs (abstract : String) (bs : List String) : List String :=
  List.foldl pushIncl bs
    (((splitSentences abstract.data).map (fun l => (⟨jsTrimList l⟩ : String))).filter
      (fun s => decide (s ≠ "")))

/-- Mine clause candidates of the abstract (length over 25, not already
present at entry). -/
def addClauseSegs (abstract : String) (bs : List String) : List String :=
  List.foldl pushCap bs
    (((splitClauses abstract.data).map (fun l => (⟨jsTrimList l⟩ : String))).filter
      (fun s => decide (25 < strLen s) && decide (s ∉ bs)))

/-- First generic padding line. -/
def padBullet0 : String := "Résumé trop concis fourni par le modèle."

/-- Second generic padding line. -/
def padBullet1 : String := "Informations supplémentaires non extraites automatiquement."

/-- Third generic padding line. -/
def padBullet2 : String := "Consultez l’article original pour les autres détails."

/-- The `while (bullets.length < 3)` padding loop, unrolled: each pass adds
exactly one line chosen by the current length. -/
def padBullets : List String → List String
  | [] => [padBullet0, padBullet1, padBullet2]
  | [a] => [a, padBullet1, padBullet2]
  | [a, b] => [a, b, padBullet2]
  | l => l

/-- The whole bullet pipeline of `parseOpenCodeOutput` on the post-splice
lines and the final abstract, ending with `bullets.slice(0, 3)`. -/
def buildBullets (lines : List String) (abstract : String) : List String :=
  (padBullets
    (addClauseSegs abstract
      (addAbstractSegs abstract
        (addResidualSegs lines
          (addSemiSegs lines (bulletsFromMarkers lines)))))).take 3

/-- `parseOpenCodeOutput` from src/summarise-with-oc.ts; `none` is the
thrown `Error` of the source. -/
def parseOpenCodeOutput (raw : String) : Option ParsedSummary :=
  let lines := linesOf raw
  if lines = [] then none
  else
    match extractTitle lines with
    | (translatedTitle, lines1) =>
      match extractAbstract lines1 with
      | none => none
      | some (abstract0, lines2) =>
        match fallbackAbstract abstract0 lines2 with
        | none => none
        | some (abstract, lines3) =>
          some { abstract := abstract
                 bullets := buildBullets lines3 abstract
                 translatedTitle := translatedTitle }

/-- `fallbackSummarise` from src/summarise-with-oc.ts. -/
def fallbackSummarise (input : SummariseInput) : SummariseResult :=
  { abstract := enforceCharLimit
      ("Résumé automatique indisponible. Consultez l’article original pour davantage de détails : "
        ++ input.title ++ ".") input.maxChars
    bullets := ["La traduction française n’a pas pu être générée automatiquement.",
      "Un suivi éditorial est nécessaire pour confirmer les points clés.",
      "Source : " ++ (if input.url = "" then "lien non communiqué" else input.url)]
    via := "fallback"
    engine := some "local-extractive"
    translatedTitle := none }

/-- Outcome of one `requestCompletion` attempt as seen by the retry loop:
the request rejected (or timed out), or it resolved with some text. -/
inductive RequestOutcome where
  | err
  | text (s : String)
deriving DecidableEq, Repr

/-- Attempt budget `SUMMARY_RETRIES` (clamped to `[1, 5]`, default 3). -/
def maxAttemptsFor (env : Option Int) : Nat :=
  match env with
  | some v => (min (max 1 v) 5).toNat
  | none => 3

/-- Classification of one attempt by the loop body of `summariseWithOC`:
a rejected request, empty text, refusal-style text and unparsable text all
fail the attempt; otherwise the parsed summary is produced.  `isRefusal`
models the regex battery of the source's `isRefusal`. -/
def attemptResult (isRefusal : String → Bool) (o : RequestOutcome) : Option ParsedSummary :=
  match o with
  | .err => none
  | .text s =>
    if s = "" then none
    else
      if isRefusal (normaliseModelOutput s) then none
      else parseOpenCodeOutput (normaliseModelOutput s)

/-- The `while (attempt < maxAttempts)` loop of `summariseWithOC`: `fuel` is
the number of attempts left, `attempt` the number already made; `outcomes i`
is what the external service does on attempt `i`.  Returns the result and
the total number of attempts made.  The backoff delay between attempts has
no observable effect on the result and is not modelled. -/
def summariseAttempts (isRefusal : String → Bool) (input : SummariseInput)
    (modelEngine : String) (outcomes : Nat → RequestOutcome) :
    Nat → Nat → SummariseResult × Nat
  | attempt, 0 => (fallbackSummarise input, attempt)
  | attempt, fuel + 1 =>
    match attemptResult isRefusal (outcomes attempt) with
    | some parsed =>
      ({ abstract := parsed.abstract
         bullets := parsed.bullets
         via := "opencode"
         engine := some modelEngine
         translatedTitle :=
           match parsed.translatedTitle with
           | some t => if t = "" then none else some t
           | none => none }, attempt + 1)
    | none => summariseAttempts isRefusal input modelEngine outcomes (attempt + 1) fuel

/-- `summariseWithOC` from src/summarise-with-oc.ts, with the external
text-generation service modelled by the per-attempt `outcomes` oracle. -/
def summariseWithOC (isRefusal : String → Bool) (input : SummariseInput)
    (modelEngine : String) (envRetries : Option Int)
    (outcomes : Nat → RequestOutcome) : SummariseResult × Nat :=
  summariseAttempts isRefusal input modelEngine outcomes 0 (maxAttemptsFor envRetries)

/-- Input used by the C5 and C6 witnesses. -/
def inputW : SummariseInput := ⟨"Un article", "https://example.org/a", "corps", 400, 120⟩

/-! ## Hydration content resolution
(`resolveItemText` / `fetchArticleContent` / `normaliseContent`,
scripts/build-edition.ts, claim C8) -/

/-- Worker of `replace(/\s+/g, " ")`: the flag is true while inside a
whitespace run already replaced by one space. -/
def collapseWsGo : Bool → List Char → List Char
  | _, [] => []
  | true, c :: rest =>
    if isJsSpace c then collapseWsGo true rest
    else c :: collapseWsGo false rest
  | false, c :: rest =>
    if isJsSpace c then ' ' :: collapseWsGo true rest
    else c :: collapseWsGo false rest

/-- `replace(/\s+/g, " ")`. -/
def collapseWs (l : List Char) : List Char := collapseWsGo false l

/-- `normaliseContent`: empty (falsy) input yields `""`; otherwise the
external `html-to-text` conversion (oracle `htmlToText`), whitespace
collapsed and trimmed. -/
def normaliseContent (htmlToText : String → String) (html : String) : String :=
  if html = "" then "" else jsTrim ⟨collapseWs (htmlToText html).data⟩

/-- Network outcome of the article page fetch: `fail` covers a thrown or
aborted (timed-out) request, a non-OK status and a non-`text/html` content
type; `page` carries the HTML body. -/
inductive FetchOutcome where
  | fail
  | page (html : String)
deriving DecidableEq, Repr

/-- `fetchArticleContent`: normalise the fetched HTML and return it only
when nonempty; every failure path yields `none`. -/
def fetchArticleContent (htmlToText : String → String) (outcome : FetchOutcome) :
    Option String :=
  match outcome with
  | .fail => none
  | .page html =>
    if 0 < strLen (normaliseContent htmlToText html) then
      some (normaliseContent htmlToText html)
    else none

/-- `resolveItemText` from scripts/build-edition.ts. -/
def resolveItemText (htmlToText : String → String) (minChars : Nat) (item : FeedItem)
    (outcome : FetchOutcome) : String :=
  if minChars ≤ strLen (normaliseContent htmlToText item.rawContent) then
    normaliseContent htmlToText item.rawContent
  else if item.url = "" then normaliseContent htmlToText item.rawContent
  else
    match fetchArticleContent htmlToText outcome with
    | some article => article
    | none => normaliseContent htmlToText item.rawContent

/-! ## Quality-gated synthesis loop (main, scripts/build-edition.ts, claim C7) -/

/-- The `{warnings, errors}` pair computed by `runEditorialValidation`. -/
structure QAReport where
  warnings : List String
  errors : List String
deriving DecidableEq, Repr

/-- `MAX_BRIEFING_ATTEMPTS` from scripts/build-edition.ts. -/
def MAX_BRIEFING_ATTEMPTS : Nat := 2

/-- State left behind by the `for (attempt = 1; ...)` loop of `main`:
the accepted briefing (if QA passed), the last candidate, the last QA
result, and the number of attempts made.  Drafts are opaque values of `α`
(`EditionBriefing`). -/
structure BriefOutcome (α : Type) where
  accepted : Option α
  last : Option α
  qa : QAReport
  attempts : Nat
deriving DecidableEq, Repr

/-- The attempt loop of `main`: `gen i` is what `generateBriefingDocument`
returns on attempt `i` (a total external call — it falls back internally),
`validate` is `runEditorialValidation`.  Each pass stores the candidate as
`lastCandidate`, computes QA, accepts and stops on an empty error list. -/
def briefingAttemptLoop {α : Type} (gen : Nat → α) (validate : α → QAReport) :
    Nat → Nat → Option α → QAReport → BriefOutcome α
  | 0, made, last, qa => ⟨none, last, qa, made⟩
  | fuel + 1, made, _, _ =>
    let candidate := gen (made + 1)
    let qr := validate candidate
    if qr.errors = [] then ⟨some candidate, some candidate, qr, made + 1⟩
    else briefingAttemptLoop gen validate fuel (made + 1) (some candidate) qr

/-- The full bounded loop, starting before attempt 1. -/
def runBriefingAttempts {α : Type} (gen : Nat → α) (validate : α → QAReport) :
    BriefOutcome α :=
  briefingAttemptLoop gen validate MAX_BRIEFING_ATTEMPTS 0 none ⟨[], []⟩

/-- The acceptance epilogue of `main`: an accepted draft is kept; otherwise
the last draft is accepted anyway and every blocking QA error of the final
attempt is pushed as a `QA error: …` flag; the final attempt's warnings are
appended as flags in both cases.  `none` models the fallback/throw path
taken only when no candidate exists at all. -/
def finishBriefing {α : Type} (o : BriefOutcome α) : Option (α × List String) :=
  match o.accepted with
  | some b => some (b, o.qa.warnings)
  | none =>
    match o.last with
    | some lc => some (lc, (o.qa.errors.map (fun e => "QA error: " ++ e)) ++ o.qa.warnings)
    | none => none

/-- Draft generator of the C7 witness (drafts are numbered). -/
def genC7 : Nat → Nat := fun i => i

/-- Validator of the C7 witness: one warning, one blocking error, always. -/
def valC7 : Nat → QAReport := fun _ => ⟨["w1"], ["too short"]⟩

/-! ## Insufficient-content decision
(`main` lines 334–348 and `loadFallbackEdition`, scripts/build-edition.ts, claim C1) -/

/-- `MIN_VALID_ARTICLES` from scripts/build-edition.ts. -/
def MIN_VALID_ARTICLES : Nat := 5

/-- Lookback loop of `loadFallbackEdition`: step the cursor back one day at
a time (dates are modelled as epoch day numbers, `addDays(date, -1)` is the
predecessor) and return the first prior date whose edition file exists
(`loadEditionByDate`, a filesystem read, is the oracle `hasEdition`). -/
def loadFallbackEditionLoop (hasEdition : Int → Bool) : Nat → Int → Option Int
  | 0, _ => none
  | n + 1, cursor =>
    if hasEdition (cursor - 1) then some (cursor - 1)
    else loadFallbackEditionLoop hasEdition n (cursor - 1)

/-- `loadFallbackEdition` with its default `maxLookback = 3`. -/
def loadFallbackEdition (hasEdition : Int → Bool) (date : Int) : Option Int :=
  loadFallbackEditionLoop hasEdition 3 date

/-- What `main` does right after ingestion, as a function of the number of
pending stories. -/
inductive EditionOutcome where
  | noItems
  | fallbackWritten (slug : Int)
  | proceed (insufficientFlag : Bool)
deriving DecidableEq, Repr

/-- The pending-story checks of `main` (lines 334–348): zero stories → no
edition created; below the floor → fall back to a recent edition when one
exists, otherwise log, push the "Not enough curated articles" QA flag and
continue; otherwise continue normally.  `noItems` is the only outcome that
ends the run with no file written. -/
def editionDecision (hasEdition : Int → Bool) (date : Int) (pendingCount : Nat) :
    EditionOutcome :=
  if pendingCount = 0 then .noItems
  else if pendingCount < MIN_VALID_ARTICLES then
    match loadFallbackEdition hasEdition date with
    | some slug => .fallbackWritten slug
    | none => .proceed true
  else .proceed false

/-! ## Theorems -/

theorem lastIndexOfCharAux_spec (ch : Char) :
    ∀ (l : List Char) (i : Nat) (best : Int),
      lastIndexOfCharAux ch l i best = best ∨
        ∃ j : Nat, lastIndexOfCharAux ch l i best = (j : Int) ∧ i ≤ j ∧
          j - i < l.length ∧ l.get? (j - i) = some ch := by
  intro l
  induction l with
  | nil => intro i best; exact Or.inl rfl
  | cons c rest ih =>
    intro i best
    simp only [lastIndexOfCharAux]
    by_cases hc : c = ch
    · simp only [if_pos hc]
      rcases ih (i + 1) (i : Int) with h | ⟨j, h1, h2, h3, h4⟩
      · refine Or.inr ⟨i, h, le_refl _, by simp, ?_⟩
        simp [hc]
      · refine Or.inr ⟨j, h1, by omega, by simp; omega, ?_⟩
        have : j - i = (j - (i + 1)) + 1 := by omega
        rw [this]
        simpa using h4
    · simp only [if_neg hc]
      rcases ih (i + 1) best with h | ⟨j, h1, h2, h3, h4⟩
      · exact Or.inl h
      · refine Or.inr ⟨j, h1, by omega, by simp; omega, ?_⟩
        have : j - i = (j - (i + 1)) + 1 := by omega
        rw [this]
        simpa using h4

/-- If `lastIndexOfChar` finds a non-negative index, that index is inside the
list and the list holds the character there. -/
theorem lastIndexOfChar_spec (l : List Char) (ch : Char) (j : Nat)
    (h : lastIndexOfChar l ch = (j : Int)) : j < l.length ∧ l.get? j = some ch := by
  rcases lastIndexOfCharAux_spec ch l 0 (-1) with h0 | ⟨j', h1, _, h3, h4⟩
  · rw [lastIndexOfChar] at h
    omega
  · rw [lastIndexOfChar] at h
    rw [h] at h1
    have : j = j' := by exact_mod_cast h1
    subst this
    simpa using And.intro h3 h4

theorem boundaryAt_punct (c : Char) (rest : List Char)
    (h : boundaryAt (c :: rest) = true) : sentencePunct c = true := by
  cases rest with
  | nil => simpa [boundaryAt] using h
  | cons d t =>
    simp only [boundaryAt, Bool.and_eq_true] at h
    exact h.1

theorem matchBoundaryChar_punct :
    ∀ (l : List Char) (ch : Char), matchBoundaryChar l = some ch → sentencePunct ch = true := by
  intro l
  induction l with
  | nil => intro ch h; simp [matchBoundaryChar] at h
  | cons c rest ih =>
    intro ch h
    simp only [matchBoundaryChar] at h
    split at h
    · rename_i hcond
      simp only [Bool.and_eq_true] at hcond
      injection h with h
      subst h
      exact boundaryAt_punct c rest hcond.1
    · exact ih ch h

/-- C9 (amended): for every string `v` and limit `m`, `enforceCharLimit v m`
returns either `v` itself or the whitespace-trim of a prefix of `v` of length
`k ≤ m` whose last character is sentence punctuation sitting at index
`k - 1 ≥ ⌊0.6·m⌋`; and the limit is not always enforced: on a long string
with no sentence boundary the full over-long string is returned. -/
theorem claim_C9_enforceCharLimit :
    (∀ (v : String) (m : Nat),
      enforceCharLimit v m = v ∨
        ∃ k ch, k ≤ m ∧ sentencePunct ch = true ∧
          (6 * m : Int) / 10 ≤ (k : Int) - 1 ∧
          (v.data.take k).get? (k - 1) = some ch ∧
          enforceCharLimit v m = jsTrim (strTake v k)) ∧
    enforceCharLimit "aaaaaaaaaaaaaaa" 10 = "aaaaaaaaaaaaaaa" ∧
    10 < strLen "aaaaaaaaaaaaaaa" := by
  refine ⟨?_, by decide, by decide⟩
  intro v m
  by_cases hlen : strLen v ≤ m
  · left
    simp [enforceCharLimit, hlen]
  · cases hmb : matchBoundaryChar (strTake v m).data with
    | none =>
      left
      simp [enforceCharLimit, hlen, hmb]
    | some ch =>
      have hpunct := matchBoundaryChar_punct _ ch hmb
      by_cases hidx : (6 * m : Int) / 10 ≤ lastIndexOfChar (strTake v m).data ch
      · right
        have h0 : (0 : Int) ≤ (6 * m : Int) / 10 :=
          Int.ediv_nonneg (by positivity) (by norm_num)
        have hge0 : (0 : Int) ≤ lastIndexOfChar (strTake v m).data ch := le_trans h0 hidx
        obtain ⟨n, hn⟩ : ∃ n : Nat, lastIndexOfChar (strTake v m).data ch = (n : Int) :=
          ⟨(lastIndexOfChar (strTake v m).data ch).toNat, (Int.toNat_of_nonneg hge0).symm⟩
        obtain ⟨hnlt, hnget⟩ := lastIndexOfChar_spec (strTake v m).data ch n hn
        have hdata : (strTake v m).data = v.data.take m := rfl
        have hnm : n < m := by
          rw [hdata, List.length_take] at hnlt
          omega
        refine ⟨n + 1, ch, by omega, hpunct, ?_, ?_, ?_⟩
        · have : ((n + 1 : Nat) : Int) - 1 = (n : Int) := by push_cast; ring
          rw [this, ← hn]
          exact hidx
        · have hv : v.data.get? n = some ch := by
            rw [hdata, List.get?_take hnm] at hnget
            exact hnget
          simpa [List.get?_take (Nat.lt_succ_self n)] using hv
        · simp only [enforceCharLimit, if_neg hlen, hmb, if_pos hidx]
          congr 1
          have htn : (lastIndexOfChar (strTake v m).data ch).toNat = n := by
            rw [hn]
            exact Int.toNat_natCast n
          rw [htn]
          show (⟨((v.data.take m).take (n + 1) : List Char)⟩ : String) = ⟨v.data.take (n + 1)⟩
          rw [List.take_take, min_eq_left (by omega)]
      · left
        simp [enforceCharLimit, hlen, hmb, hidx]

/-- C9 counterexample: with a leading space in the input, the trimmed
truncation is not a prefix of the input (and differs from it), refuting the
claim that the result is always `v` or a prefix of `v` of length at most `m`. -/
theorem claim_C9_counterexample :
    enforceCharLimit " abcde. ghij klmno" 10 = "abcde." ∧
    "abcde." ≠ " abcde. ghij klmno" ∧
    ∀ k, k ≤ 10 → (" abcde. ghij klmno" : String).data.take k ≠ ("abcde." : String).data := by
  refine ⟨by decide, by decide, ?_⟩
  decide

theorem stableInsert_perm (keep : α → α → Bool) (a : α) :
    ∀ l : List α, List.Perm (stableInsert keep a l) (a :: l) := by
  intro l
  induction l with
  | nil => simp [stableInsert]
  | cons b bs ih =>
    simp only [stableInsert]
    split
    · exact ((ih.cons b).trans (List.Perm.swap a b bs))
    · exact List.Perm.refl _

theorem stableSort_foldl_perm (keep : α → α → Bool) :
    ∀ (l acc : List α), List.Perm (l.foldl (fun acc x => stableInsert keep x acc) acc) (acc ++ l) := by
  intro l
  induction l with
  | nil => intro acc; simp
  | cons x xs ih =>
    intro acc
    have h1 := ih (stableInsert keep x acc)
    have h2 : List.Perm (stableInsert keep x acc ++ xs) ((x :: acc) ++ xs) :=
      (stableInsert_perm keep x acc).append_right xs
    have h3 : List.Perm ((x :: acc) ++ xs) (acc ++ x :: xs) := by
      simpa using List.perm_middle.symm
    simpa using (h1.trans h2).trans h3

/-- `stableSort` permutes its input. -/
theorem stableSort_perm (keep : α → α → Bool) (l : List α) : List.Perm (stableSort keep l) l := by
  simpa using stableSort_foldl_perm keep l []

theorem stableInsert_pairwise (R : α → α → Prop) (keep : α → α → Bool)
    (h1 : ∀ a b, keep b a = true → R b a) (h2 : ∀ a b, keep b a = false → R a b)
    (htrans : ∀ x y z, R x y → R y z → R x z) (a : α) :
    ∀ l : List α, l.Pairwise R → (stableInsert keep a l).Pairwise R := by
  intro l
  induction l with
  | nil => intro _; simp [stableInsert]
  | cons b bs ih =>
    intro hl
    rcases List.pairwise_cons.mp hl with ⟨hb, hbs⟩
    simp only [stableInsert]
    split
    · rename_i hkeep
      refine List.pairwise_cons.mpr ⟨?_, ih hbs⟩
      intro x hx
      rcases List.mem_cons.mp (((stableInsert_perm keep a bs).mem_iff).mp hx) with hx | hx
      · exact hx ▸ h1 a b hkeep
      · exact hb x hx
    · rename_i hkeep
      refine List.pairwise_cons.mpr ⟨?_, hl⟩
      intro x hx
      rcases List.mem_cons.mp hx with hx | hx
      · exact hx ▸ h2 a b (Bool.of_not_eq_true hkeep)
      · exact htrans a b x (h2 a b (Bool.of_not_eq_true hkeep)) (hb x hx)

/-- `stableSort` sorts with respect to any relation compatible with `keep`. -/
theorem stableSort_pairwise (R : α → α → Prop) (keep : α → α → Bool)
    (h1 : ∀ a b, keep b a = true → R b a) (h2 : ∀ a b, keep b a = false → R a b)
    (htrans : ∀ x y z, R x y → R y z → R x z) (l : List α) :
    (stableSort keep l).Pairwise R := by
  suffices h : ∀ (l acc : List α), acc.Pairwise R →
      (l.foldl (fun acc x => stableInsert keep x acc) acc).Pairwise R by
    exact h l [] (List.Pairwise.nil)
  intro l
  induction l with
  | nil => intro acc hacc; simpa using hacc
  | cons x xs ih =>
    intro acc hacc
    exact ih _ (stableInsert_pairwise R keep h1 h2 htrans x acc hacc)

/-- Two lists that are permutations of each other, both sorted by a key that
is duplicate-free on them, are equal. -/
theorem perm_pairwise_key_nodup_eq {β : Type} [LinearOrder β] (key : α → β) :
    ∀ (l₁ l₂ : List α), List.Perm l₁ l₂ →
      l₁.Pairwise (fun x y => key x ≤ key y) →
      l₂.Pairwise (fun x y => key x ≤ key y) →
      (l₁.map key).Nodup → l₁ = l₂ := by
  intro l₁
  induction l₁ with
  | nil =>
    intro l₂ hperm _ _ _
    exact (hperm.nil_eq).symm ▸ rfl
  | cons a t₁ ih =>
    intro l₂ hperm hs₁ hs₂ hnd
    cases l₂ with
    | nil => exact absurd hperm.symm.nil_eq (by simp)
    | cons b t₂ =>
      rcases List.pairwise_cons.mp hs₁ with ⟨ha, hs₁t⟩
      rcases List.pairwise_cons.mp hs₂ with ⟨hbt, hs₂t⟩
      have hnd2 : key a ∉ t₁.map key ∧ (t₁.map key).Nodup := by
        rw [List.map_cons, List.nodup_cons] at hnd
        exact hnd
      obtain ⟨hka, hndt⟩ := hnd2
      have hab : a = b := by
        have hamem : a ∈ b :: t₂ := hperm.subset (List.mem_cons_self a t₁)
        rcases List.mem_cons.mp hamem with h | h
        · exact h
        · have hba : key b ≤ key a := hbt a h
          have hbmem : b ∈ a :: t₁ := hperm.symm.subset (List.mem_cons_self b t₂)
          rcases List.mem_cons.mp hbmem with h' | h'
          · exact h'.symm
          · have hab' : key a ≤ key b := ha b h'
            have hkey : key a = key b := le_antisymm hab' hba
            have hin : key a ∈ t₁.map key := by
              rw [hkey]
              exact List.mem_map_of_mem key h'
            exact absurd hin hka
      subst hab
      have ht : List.Perm t₁ t₂ := hperm.cons_inv
      have := ih t₂ ht hs₁t hs₂t hndt
      rw [this]

/-- Soundness of the scan: every retained item comes from the input, has a
nonempty URL, is unseen (unless the run is forced), and is inside the
collection window whenever its timestamp parses. -/
theorem pickScan_sound (dp : String → Option Int) (fp : String → String) (seen : List String)
    (start endT : Int) (maxN : Nat) (ig : Bool) :
    ∀ (l : List FeedItem) (count : Nat) (x : FeedItem),
      x ∈ pickScan dp fp seen start endT maxN ig l count →
      x ∈ l ∧ x.url ≠ "" ∧ (ig = false → fp x.url ∉ seen) ∧
        ∀ t, parsePublishedAt dp x.publishedAt = some t → start ≤ t ∧ t < endT := by
  intro l
  induction l with
  | nil => intro count x hx; simp [pickScan] at hx
  | cons item rest ih =>
    intro count x hx
    simp only [pickScan] at hx
    by_cases hurl : item.url = ""
    · rw [if_pos hurl] at hx
      obtain ⟨h1, h2, h3, h4⟩ := ih count x hx
      exact ⟨List.mem_cons_of_mem _ h1, h2, h3, h4⟩
    · rw [if_neg hurl] at hx
      cases hparse : parsePublishedAt dp item.publishedAt with
      | some t =>
        simp only [hparse] at hx
        by_cases hend : endT ≤ t
        · rw [if_pos hend] at hx
          obtain ⟨h1, h2, h3, h4⟩ := ih count x hx
          exact ⟨List.mem_cons_of_mem _ h1, h2, h3, h4⟩
        · rw [if_neg hend] at hx
          by_cases hstart : t < start
          · rw [if_pos hstart] at hx
            simp at hx
          · rw [if_neg hstart] at hx
            by_cases hseen : ig = false ∧ fp item.url ∈ seen
            · rw [if_pos hseen] at hx
              obtain ⟨h1, h2, h3, h4⟩ := ih count x hx
              exact ⟨List.mem_cons_of_mem _ h1, h2, h3, h4⟩
            · rw [if_neg hseen] at hx
              rcases List.mem_cons.mp hx with rfl | hx
              · refine ⟨List.mem_cons_self _ _, hurl, ?_, ?_⟩
                · intro hig hmem
                  exact hseen ⟨hig, hmem⟩
                · intro t' ht'
                  rw [hparse] at ht'
                  injection ht' with ht'
                  subst ht'
                  exact ⟨le_of_not_lt hstart, lt_of_not_le hend⟩
              · by_cases hcap : maxN ≤ count + 1
                · rw [if_pos hcap] at hx
                  simp at hx
                · rw [if_neg hcap] at hx
                  obtain ⟨h1, h2, h3, h4⟩ := ih (count + 1) x hx
                  exact ⟨List.mem_cons_of_mem _ h1, h2, h3, h4⟩
      | none =>
        simp only [hparse] at hx
        by_cases hseen : ig = false ∧ fp item.url ∈ seen
        · rw [if_pos hseen] at hx
          obtain ⟨h1, h2, h3, h4⟩ := ih count x hx
          exact ⟨List.mem_cons_of_mem _ h1, h2, h3, h4⟩
        · rw [if_neg hseen] at hx
          rcases List.mem_cons.mp hx with rfl | hx
          · refine ⟨List.mem_cons_self _ _, hurl, ?_, ?_⟩
            · intro hig hmem
              exact hseen ⟨hig, hmem⟩
            · intro t' ht'
              rw [hparse] at ht'
              exact absurd ht' (by simp)
          · by_cases hcap : maxN ≤ count + 1
            · rw [if_pos hcap] at hx
              simp at hx
            · rw [if_neg hcap] at hx
              obtain ⟨h1, h2, h3, h4⟩ := ih (count + 1) x hx
              exact ⟨List.mem_cons_of_mem _ h1, h2, h3, h4⟩

/-- Every item retained by `pickFreshItems` has a nonempty URL. -/
theorem pickFreshItems_url_ne (dp : String → Option Int) (fp : String → String)
    (seen : List String) (start endT : Int) (maxN : Nat) (ig : Bool) (items : List FeedItem)
    (x : FeedItem) (hx : x ∈ pickFreshItems dp fp seen start endT maxN ig items) :
    x.url ≠ "" :=
  (pickScan_sound dp fp seen start endT maxN ig _ 0 x hx).2.1

/-- Completeness of the scan on a descending-sorted list of items whose
timestamps all parse, when the capacity cannot be exhausted: every admissible
in-window item is retained. -/
theorem pickScan_complete (dp : String → Option Int) (fp : String → String)
    (seen : List String) (start endT : Int) (maxN : Nat) (ig : Bool) :
    ∀ (l : List FeedItem) (count : Nat),
      (∀ x ∈ l, (parsePublishedAt dp x.publishedAt).isSome = true) →
      l.Pairwise (fun a b => pickSortKey dp b ≤ pickSortKey dp a) →
      count + l.length ≤ maxN →
      ∀ x ∈ l, x.url ≠ "" → (ig = false → fp x.url ∉ seen) →
        (∃ t, parsePublishedAt dp x.publishedAt = some t ∧ start ≤ t ∧ t < endT) →
        x ∈ pickScan dp fp seen start endT maxN ig l count := by
  intro l
  induction l with
  | nil => intro count _ _ _ x hx; simp at hx
  | cons item rest ih =>
    intro count hall hsorted hcap x hx hxurl hxseen hxwin
    obtain ⟨hhead, htail⟩ := List.pairwise_cons.mp hsorted
    have hallrest : ∀ y ∈ rest, (parsePublishedAt dp y.publishedAt).isSome = true :=
      fun y hy => hall y (List.mem_cons_of_mem _ hy)
    simp only [pickScan]
    by_cases hurl : item.url = ""
    · rw [if_pos hurl]
      rcases List.mem_cons.mp hx with rfl | hx'
      · exact absurd hurl hxurl
      · exact ih count hallrest htail (by simp at hcap ⊢; omega) x hx' hxurl hxseen hxwin
    · rw [if_neg hurl]
      obtain ⟨ti, hti⟩ := Option.isSome_iff_exists.mp (hall item (List.mem_cons_self _ _))
      simp only [hti]
      by_cases hend : endT ≤ ti
      · rw [if_pos hend]
        rcases List.mem_cons.mp hx with rfl | hx'
        · obtain ⟨t, ht, _, htlt⟩ := hxwin
          rw [hti] at ht
          injection ht with ht
          omega
        · exact ih count hallrest htail (by simp at hcap ⊢; omega) x hx' hxurl hxseen hxwin
      · rw [if_neg hend]
        by_cases hstart : ti < start
        · exfalso
          rcases List.mem_cons.mp hx with rfl | hx'
          · obtain ⟨t, ht, htge, _⟩ := hxwin
            rw [hti] at ht
            injection ht with ht
            omega
          · obtain ⟨t, ht, htge, _⟩ := hxwin
            have hkey : pickSortKey dp x ≤ pickSortKey dp item := hhead x hx'
            have h1 : pickSortKey dp x = t := by
              simp [pickSortKey, ht]
            have h2 : pickSortKey dp item = ti := by
              simp [pickSortKey, hti]
            omega
        · rw [if_neg hstart]
          by_cases hseen : ig = false ∧ fp item.url ∈ seen
          · rw [if_pos hseen]
            rcases List.mem_cons.mp hx with rfl | hx'
            · exact absurd hseen.2 (hxseen hseen.1)
            · exact ih count hallrest htail (by simp at hcap ⊢; omega) x hx' hxurl hxseen hxwin
          · rw [if_neg hseen]
            rcases List.mem_cons.mp hx with rfl | hx'
            · exact List.mem_cons_self _ _
            · refine List.mem_cons_of_mem _ ?_
              by_cases hcap' : maxN ≤ count + 1
              · exfalso
                have : rest.length = 0 := by
                  simp at hcap
                  omega
                rw [List.length_eq_zero] at this
                subst this
                simp at hx'
              · rw [if_neg hcap']
                exact ih (count + 1) hallrest htail (by simp at hcap ⊢; omega) x hx' hxurl hxseen hxwin

/-- C2 (amended): when every candidate timestamp parses and the per-feed cap
cannot be hit, `pickFreshItems` retains exactly the unseen, nonempty-URL
items with `start ≤ publishedAt < endT`.  (The unparsable-timestamp clause of
the original claim is dropped: such items sort to the very end with key 0 and
are lost whenever the scan breaks at an item older than the window start —
see the counterexample.) -/
theorem claim_C2_pickFreshItems_window (dp : String → Option Int) (fp : String → String)
    (seen : List String) (start endT : Int) (maxN : Nat) (ig : Bool) (items : List FeedItem)
    (hall : ∀ x ∈ items, (parsePublishedAt dp x.publishedAt).isSome = true)
    (hcap : items.length ≤ maxN) :
    ∀ x ∈ items,
      x ∈ pickFreshItems dp fp seen start endT maxN ig items ↔
        x.url ≠ "" ∧ (ig = false → fp x.url ∉ seen) ∧
          ∃ t, parsePublishedAt dp x.publishedAt = some t ∧ start ≤ t ∧ t < endT := by
  intro x hxitems
  have hperm : List.Perm (sortByDateDesc dp items) items :=
    stableSort_perm _ items
  constructor
  · intro hx
    obtain ⟨_, h2, h3, h4⟩ := pickScan_sound dp fp seen start endT maxN ig _ 0 x hx
    refine ⟨h2, h3, ?_⟩
    obtain ⟨t, ht⟩ := Option.isSome_iff_exists.mp (hall x hxitems)
    exact ⟨t, ht, (h4 t ht).1, (h4 t ht).2⟩
  · intro ⟨hxurl, hxseen, hxwin⟩
    refine pickScan_complete dp fp seen start endT maxN ig _ 0 ?_ ?_ ?_ x ?_ hxurl hxseen hxwin
    · intro y hy
      exact hall y (hperm.subset hy)
    · refine stableSort_pairwise _ _ ?_ ?_ ?_ items
      · intro a b h
        exact of_decide_eq_true h
      · intro a b h
        have := of_decide_eq_false h
        omega
      · intro a b c h1 h2
        omega
    · simpa [hperm.length_eq] using hcap
    · exact hperm.mem_iff.mpr hxitems

/-- Witness for C2: a single parseable in-window item is retained, and the
characterisation evaluates as stated on it. -/
theorem claim_C2_witness :
    itemFresh ∈ pickFreshItems dpC2 id [] 100 200 5 false [itemFresh] ↔
      itemFresh.url ≠ "" ∧ (false = false → id itemFresh.url ∉ ([] : List String)) ∧
        ∃ t, parsePublishedAt dpC2 itemFresh.publishedAt = some t ∧ 100 ≤ t ∧ t < 200 :=
  claim_C2_pickFreshItems_window dpC2 id [] 100 200 5 false [itemFresh]
    (by decide) (by decide) itemFresh (by decide)

/-- C2 counterexample: an item whose timestamp does not parse is dropped, not
retained: it sorts to the end with key 0, and the scan breaks at the stale
item before ever examining it.  This refutes the claim that an unparsable
item is always retained as "always fresh". -/
theorem claim_C2_counterexample :
    parsePublishedAt dpC2 itemNoDate.publishedAt = none ∧
    itemNoDate.url ≠ "" ∧
    pickFreshItems dpC2 id [] 100 200 5 false [itemStale, itemNoDate] = [] := by
  refine ⟨by decide, by decide, by decide⟩

/-- C10: a feed entry with neither link nor guid is mapped to an empty-string
URL by the `fetchFeedItems` mapping, and no empty-URL item is ever retained
by `pickFreshItems`, whatever the timestamp, seen set, window, cap or
force-regeneration flag. -/
theorem claim_C10_no_link_no_guid (e : RawEntry) (now : String)
    (h1 : e.link = none) (h2 : e.guid = none) :
    (feedItemOfEntry now e).url = "" ∧
    ∀ (dp : String → Option Int) (fp : String → String) (seen : List String)
      (start endT : Int) (maxN : Nat) (ig : Bool) (items : List FeedItem),
      feedItemOfEntry now e ∉ pickFreshItems dp fp seen start endT maxN ig items := by
  have hurl : (feedItemOfEntry now e).url = "" := by
    simp [feedItemOfEntry, h1, h2]
  refine ⟨hurl, ?_⟩
  intro dp fp seen start endT maxN ig items hmem
  exact (pickFreshItems_url_ne dp fp seen start endT maxN ig items _ hmem) hurl

/-- Witness for C10 at a concrete entry and concrete filter arguments. -/
theorem claim_C10_witness :
    (feedItemOfEntry "now" entryNoLink).url = "" ∧
    feedItemOfEntry "now" entryNoLink ∉
      pickFreshItems dpC2 id [] 100 200 5 false
        [feedItemOfEntry "now" entryNoLink] :=
  ⟨(claim_C10_no_link_no_guid entryNoLink "now" rfl rfl).1,
    (claim_C10_no_link_no_guid entryNoLink "now" rfl rfl).2 dpC2 id [] 100 200 5 false _⟩

theorem lastUrlIdxAux_none (u : String) :
    ∀ (l : List PStory) (k : Nat), u ∉ l.map PStory.url → lastUrlIdxAux u l k = none := by
  intro l
  induction l with
  | nil => intro k _; rfl
  | cons s rest ih =>
    intro k hu
    have hne : u ≠ s.url := by
      intro h
      exact hu (by simp [h])
    have hrest : u ∉ rest.map PStory.url := by
      intro h
      exact hu (by simp [h])
    simp only [lastUrlIdxAux, ih (k + 1) hrest]
    rw [if_neg (fun h => hne h.symm)]

theorem lastUrlIdxAux_of_nodup :
    ∀ (l : List PStory) (k : Nat), (l.map PStory.url).Nodup →
      ∀ (i : Nat) (hi : i < l.length),
        lastUrlIdxAux (l.get ⟨i, hi⟩).url l k = some (k + i) := by
  intro l
  induction l with
  | nil => intro k _ i hi; simp at hi
  | cons s rest ih =>
    intro k hnd i hi
    have hnd2 : s.url ∉ rest.map PStory.url ∧ (rest.map PStory.url).Nodup := by
      rw [List.map_cons, List.nodup_cons] at hnd
      exact hnd
    cases i with
    | zero =>
      simp only [List.get]
      simp only [lastUrlIdxAux, lastUrlIdxAux_none s.url rest (k + 1) hnd2.1]
      simp
    | succ j =>
      have hj : j < rest.length := by simpa using hi
      have := ih (k + 1) hnd2.2 j hj
      simp only [List.get] at this ⊢
      simp only [lastUrlIdxAux, this]
      congr 1
      omega

theorem orderMapGet_of_nodup (stories : List PStory)
    (hnd : (stories.map PStory.url).Nodup) (i : Nat) (hi : i < stories.length) :
    orderMapGet stories (stories.get ⟨i, hi⟩).url = i := by
  rw [orderMapGet, lastUrlIdxAux_of_nodup stories 0 hnd i hi]
  simp

/-- C3 (amended): provided the story URLs are pairwise distinct — the sort
key `summariseStories` uses is the URL, so duplicates collapse — the
narrative list is the same for every completion order of the pool, namely the
one obtained by completing in submission order. -/
theorem claim_C3_order_stability (summaryOf : PStory → SummariseResult)
    (displayTitleOf : PStory → SummariseResult → String)
    (stories completed : List PStory)
    (hnodup : (stories.map PStory.url).Nodup)
    (hperm : List.Perm completed stories) :
    summariseStoriesOrder summaryOf displayTitleOf stories completed =
      stories.map (toNarrative summaryOf displayTitleOf) := by
  set toN := toNarrative summaryOf displayTitleOf with htoN
  set key : NarrativeItem → Nat := fun n => orderMapGet stories n.url with hkeydef
  have hkeys : ∀ (i : Nat) (hi : i < stories.length),
      key (toN (stories.get ⟨i, hi⟩)) = i := by
    intro i hi
    exact orderMapGet_of_nodup stories hnodup i hi
  have hks : (stories.map toN).map key = List.range stories.length := by
    apply List.ext_get
    · rw [List.length_map, List.length_map, List.length_range]
    · intro i h1 h2
      rw [List.get_map, List.get_map, List.get_range]
      exact hkeys i (by simpa using h1)
  have hsorted_rhs : (stories.map toN).Pairwise (fun x y => key x ≤ key y) := by
    have hp : ((stories.map toN).map key).Pairwise (· ≤ ·) := by
      rw [hks]
      exact (List.pairwise_lt_range _).imp (fun h => le_of_lt h)
    rw [List.pairwise_map] at hp
    exact hp
  have hnd_rhs : ((stories.map toN).map key).Nodup := by
    rw [hks]
    exact List.nodup_range _
  have hperm_all : List.Perm (stories.map toN)
      (summariseStoriesOrder summaryOf displayTitleOf stories completed) :=
    ((stableSort_perm _ (completed.map toN)).trans (hperm.map toN)).symm
  have hsorted_lhs : (summariseStoriesOrder summaryOf displayTitleOf stories completed).Pairwise
      (fun x y => key x ≤ key y) := by
    apply stableSort_pairwise (fun x y => key x ≤ key y)
      (fun b a => decide (orderMapGet stories b.url ≤ orderMapGet stories a.url))
    · intro a b h
      exact of_decide_eq_true h
    · intro a b h
      have := of_decide_eq_false h
      show orderMapGet stories a.url ≤ orderMapGet stories b.url
      omega
    · intro x y z h1 h2
      exact le_trans h1 h2
  exact (perm_pairwise_key_nodup_eq key (stories.map toN) _
    hperm_all hsorted_rhs hsorted_lhs hnd_rhs).symm

/-- C3 counterexample: with two stories sharing a URL (possible across two
feeds within one run), two completion orders of the pool yield different
final narrative sequences, so the output is not completion-order
independent. -/
theorem claim_C3_counterexample :
    List.Perm [storyB, storyA] [storyA, storyB] ∧
    summariseStoriesOrder sumC3 titleC3 [storyA, storyB] [storyB, storyA] ≠
      summariseStoriesOrder sumC3 titleC3 [storyA, storyB] [storyA, storyB] := by
  constructor
  · decide
  · decide

/-- Witness for C3 on two distinct-URL stories completed in reversed order. -/
theorem claim_C3_witness :
    summariseStoriesOrder sumC3 titleC3 [storyC, storyD] [storyD, storyC] =
      [storyC, storyD].map (toNarrative sumC3 titleC3) :=
  claim_C3_order_stability sumC3 titleC3 [storyC, storyD] [storyD, storyC]
    (by decide) (by decide)

theorem hostCount_cons (hostOf : String → String) (st : PStory) (l : List PStory)
    (host : String) :
    hostCount hostOf (st :: l) host =
      hostCount hostOf l host + (if hostOf st.url = host then 1 else 0) := by
  simp only [hostCount, List.filter_cons]
  by_cases h : hostOf st.url = host
  · rw [if_pos h]
    simp [h, Nat.add_comm]
  · rw [if_neg h]
    simp [h]

theorem hostCount_append (hostOf : String → String) (l₁ l₂ : List PStory) (host : String) :
    hostCount hostOf (l₁ ++ l₂) host = hostCount hostOf l₁ host + hostCount hostOf l₂ host := by
  simp [hostCount, List.filter_append]

theorem findEligible_spec (hostOf : String → String) (H : Nat) (inflight : List PStory) :
    ∀ (q : List PStory) (st : PStory) (rest : List PStory),
      findEligible hostOf H inflight q = some (st, rest) →
      hostCount hostOf inflight (hostOf st.url) < H := by
  intro q
  induction q with
  | nil => intro st rest h; simp [findEligible] at h
  | cons s r ih =>
    intro st rest h
    simp only [findEligible] at h
    split at h
    · rename_i hcond
      injection h with h
      obtain ⟨rfl, rfl⟩ := Prod.mk.injEq .. ▸ And.intro (congrArg Prod.fst h) (congrArg Prod.snd h)
      exact hcond
    · cases hrec : findEligible hostOf H inflight r with
      | some p =>
        rw [hrec] at h
        injection h with h
        have h1 : st = p.1 := (congrArg Prod.fst h).symm ▸ rfl
        subst h1
        exact ih p.1 p.2 (by rw [hrec])
      | none =>
        rw [hrec] at h
        simp at h

theorem hostCount_cons_le (hostOf : String → String) (H : Nat) (st : PStory)
    (l : List PStory) (h1 : ∀ host, hostCount hostOf l host ≤ H)
    (h2 : hostCount hostOf l (hostOf st.url) < H) :
    ∀ host, hostCount hostOf (st :: l) host ≤ H := by
  intro host
  rw [hostCount_cons]
  by_cases hh : hostOf st.url = host
  · rw [if_pos hh]
    rw [hh] at h2
    omega
  · rw [if_neg hh]
    have := h1 host
    omega

/-- C4: in every reachable state of the hydration scheduler the global
in-flight count is at most `G` and each host's in-flight count is at most
`H`; and a dispatch can only fire when the global counter is strictly below
`G` and the chosen story's host counter strictly below `H`, after which both
caps still hold. -/
theorem claim_C4_dual_admission (hostOf : String → String) (G H : Nat)
    (stories : List PStory) (s : HydrateState)
    (hreach : HydrateReach hostOf G H stories s) :
    (globalActive s ≤ G ∧ ∀ host, hostCount hostOf s.inflight host ≤ H) ∧
    ∀ (st : PStory) (rest : List PStory),
      globalActive s < G →
      findEligible hostOf H s.inflight s.queue = some (st, rest) →
      hostCount hostOf s.inflight (hostOf st.url) < H ∧
        globalActive (⟨rest, st :: s.inflight⟩ : HydrateState) ≤ G ∧
        ∀ host, hostCount hostOf (st :: s.inflight) host ≤ H := by
  have hmain : (globalActive s ≤ G ∧ ∀ host, hostCount hostOf s.inflight host ≤ H) := by
    induction hreach with
    | init =>
      constructor
      · exact Nat.zero_le G
      · intro host
        simp [hostCount]
    | @step s' t' hr hstep ih =>
      cases hstep with
      | dispatch st rest hglobal hfind =>
        constructor
        · simpa [globalActive] using hglobal
        · exact hostCount_cons_le hostOf H st s'.inflight ih.2
            (findEligible_spec hostOf H s'.inflight s'.queue st rest hfind)
      | complete st l₁ l₂ hin =>
        constructor
        · have := ih.1
          simp only [globalActive, hin, List.length_append, List.length_cons] at this ⊢
          omega
        · intro host
          have := ih.2 host
          rw [hin, hostCount_append, hostCount_cons] at this
          rw [hostCount_append]
          omega
  refine ⟨hmain, ?_⟩
  intro st rest hg hf
  have hlt := findEligible_spec hostOf H s.inflight s.queue st rest hf
  exact ⟨hlt, by simpa [globalActive] using hg,
    hostCount_cons_le hostOf H st s.inflight hmain.2 hlt⟩

/-- Witness for C4: after dispatching one story from the initial state (with
the default caps G = 6, H = 1), the reachable state satisfies both caps. -/
theorem claim_C4_witness :
    globalActive ⟨[hstoryB], [hstoryA]⟩ ≤ HYDRATE_CONCURRENCY none ∧
    ∀ host, hostCount hostOfC4 ([hstoryA] : List PStory) host ≤
      HYDRATE_PER_DOMAIN_CONCURRENCY none := by
  have hreach : HydrateReach hostOfC4 (HYDRATE_CONCURRENCY none)
      (HYDRATE_PER_DOMAIN_CONCURRENCY none) [hstoryA, hstoryB] ⟨[hstoryB], [hstoryA]⟩ := by
    refine HydrateReach.step HydrateReach.init ?_
    exact HydrateStep.dispatch ⟨[hstoryA, hstoryB], []⟩ hstoryA [hstoryB]
      (by decide) (by decide)
  exact (claim_C4_dual_admission hostOfC4 (HYDRATE_CONCURRENCY none)
    (HYDRATE_PER_DOMAIN_CONCURRENCY none) [hstoryA, hstoryB] _ hreach).1

theorem strLen_pos_ne_empty (s : String) (h : 25 < strLen s) : s ≠ "" := by
  intro heq
  rw [heq] at h
  revert h
  decide

theorem str_append_ne_empty (s t : String) (hs : s ≠ "") : s ++ t ≠ "" := by
  intro h
  apply hs
  cases s with
  | mk d =>
    have hd := congrArg String.data h
    rw [String.data_append] at hd
    have hd2 : d ++ t.data = [] := hd
    have h2 : d = [] := (List.append_eq_nil.mp hd2).1
    rw [h2]

theorem bulletsFromMarkers_ne (lines : List String) :
    ∀ b ∈ bulletsFromMarkers lines, b ≠ "" := by
  intro b hb
  exact of_decide_eq_true (List.mem_filter.mp hb).2

theorem addSemiSegs_ne (lines : List String) (bs : List String)
    (hbs : ∀ b ∈ bs, b ≠ "") : ∀ b ∈ addSemiSegs lines bs, b ≠ "" := by
  intro b hb
  unfold addSemiSegs at hb
  split at hb
  · split at hb
    · rcases List.mem_append.mp hb with h | h
      · exact hbs b h
      · exact of_decide_eq_true (List.mem_filter.mp h).2
    · exact hbs b hb
  · exact hbs b hb

theorem foldl_pushSeg_ne (xs : List String) :
    ∀ bs, (∀ b ∈ bs, b ≠ "") → ∀ b ∈ List.foldl pushSeg bs xs, b ≠ "" := by
  induction xs with
  | nil => intro bs h b hb; exact h b hb
  | cons x xs ih =>
    intro bs h b hb
    refine ih (pushSeg bs x) ?_ b hb
    intro c hc
    unfold pushSeg at hc
    split at hc
    · exact h c hc
    · split at hc
      · rename_i hcond
        rcases List.mem_append.mp hc with h' | h'
        · exact h c h'
        · have hcx : c = x := by simpa using h'
          rw [hcx]
          exact hcond.1
      · exact h c hc

theorem foldl_pushIncl_ne (xs : List String) :
    ∀ bs, (∀ x ∈ xs, x ≠ "") → (∀ b ∈ bs, b ≠ "") →
      ∀ b ∈ List.foldl pushIncl bs xs, b ≠ "" := by
  induction xs with
  | nil => intro bs _ h b hb; exact h b hb
  | cons x xs ih =>
    intro bs hxs h b hb
    refine ih (pushIncl bs x) (fun y hy => hxs y (List.mem_cons_of_mem _ hy)) ?_ b hb
    intro c hc
    unfold pushIncl at hc
    split at hc
    · exact h c hc
    · split at hc
      · rcases List.mem_append.mp hc with h' | h'
        · exact h c h'
        · have hcx : c = x := by simpa using h'
          rw [hcx]
          exact hxs x (List.mem_cons_self _ _)
      · exact h c hc

theorem foldl_pushCap_ne (xs : List String) :
    ∀ bs, (∀ x ∈ xs, x ≠ "") → (∀ b ∈ bs, b ≠ "") →
      ∀ b ∈ List.foldl pushCap bs xs, b ≠ "" := by
  induction xs with
  | nil => intro bs _ h b hb; exact h b hb
  | cons x xs ih =>
    intro bs hxs h b hb
    refine ih (pushCap bs x) (fun y hy => hxs y (List.mem_cons_of_mem _ hy)) ?_ b hb
    intro c hc
    unfold pushCap at hc
    split at hc
    · exact h c hc
    · rcases List.mem_append.mp hc with h' | h'
      · exact h c h'
      · have hcx : c = x := by simpa using h'
        rw [hcx]
        exact hxs x (List.mem_cons_self _ _)

theorem addResidualSegs_ne (lines : List String) (bs : List String)
    (hbs : ∀ b ∈ bs, b ≠ "") : ∀ b ∈ addResidualSegs lines bs, b ≠ "" :=
  foldl_pushSeg_ne _ bs hbs

theorem addAbstractSegs_ne (abstract : String) (bs : List String)
    (hbs : ∀ b ∈ bs, b ≠ "") : ∀ b ∈ addAbstractSegs abstract bs, b ≠ "" := by
  refine foldl_pushIncl_ne _ bs ?_ hbs
  intro x hx
  exact of_decide_eq_true (List.mem_filter.mp hx).2

theorem addClauseSegs_ne (abstract : String) (bs : List String)
    (hbs : ∀ b ∈ bs, b ≠ "") : ∀ b ∈ addClauseSegs abstract bs, b ≠ "" := by
  refine foldl_pushCap_ne _ bs ?_ hbs
  intro x hx
  have := (List.mem_filter.mp hx).2
  rw [Bool.and_eq_true] at this
  exact strLen_pos_ne_empty x (of_decide_eq_true this.1)

theorem padBullets_length (bs : List String) : 3 ≤ (padBullets bs).length := by
  rcases bs with _ | ⟨a, _ | ⟨b, _ | ⟨c, t⟩⟩⟩ <;> simp [padBullets]

theorem padBullets_ne (bs : List String) (h : ∀ b ∈ bs, b ≠ "") :
    ∀ b ∈ padBullets bs, b ≠ "" := by
  have h0 : padBullet0 ≠ "" := by decide
  have h1 : padBullet1 ≠ "" := by decide
  have h2 : padBullet2 ≠ "" := by decide
  rcases bs with _ | ⟨a, _ | ⟨b, _ | ⟨c, t⟩⟩⟩ <;> intro x hx
  · simp [padBullets] at hx
    rcases hx with rfl | rfl | rfl <;> assumption
  · simp [padBullets] at hx
    rcases hx with rfl | rfl | rfl
    · exact h x (by simp)
    · exact h1
    · exact h2
  · simp [padBullets] at hx
    rcases hx with rfl | rfl | rfl
    · exact h x (by simp)
    · exact h x (by simp)
    · exact h2
  · exact h x hx

theorem buildBullets_spec (lines : List String) (abstract : String) :
    (buildBullets lines abstract).length = 3 ∧ ∀ b ∈ buildBullets lines abstract, b ≠ "" := by
  constructor
  · unfold buildBullets
    rw [List.length_take]
    have := padBullets_length
      (addClauseSegs abstract (addAbstractSegs abstract
        (addResidualSegs lines (addSemiSegs lines (bulletsFromMarkers lines)))))
    omega
  · intro b hb
    unfold buildBullets at hb
    exact padBullets_ne _
      (addClauseSegs_ne abstract _
        (addAbstractSegs_ne abstract _
          (addResidualSegs_ne lines _
            (addSemiSegs_ne lines _ (bulletsFromMarkers_ne lines)))))
      b (List.mem_of_mem_take hb)

theorem parseOpenCodeOutput_bullets (raw : String) (p : ParsedSummary)
    (h : parseOpenCodeOutput raw = some p) :
    p.bullets.length = 3 ∧ ∀ b ∈ p.bullets, b ≠ "" := by
  simp only [parseOpenCodeOutput] at h
  split at h
  · exact absurd h (by simp)
  · split at h
    · exact absurd h (by simp)
    · rename_i abstract0 lines2 heq2
      split at h
      · exact absurd h (by simp)
      · rename_i abstract lines3 heq3
        injection h with h
        rw [← h]
        exact buildBullets_spec lines3 abstract

theorem fallbackSummarise_bullets (input : SummariseInput) :
    (fallbackSummarise input).bullets.length = 3 ∧
      ∀ b ∈ (fallbackSummarise input).bullets, b ≠ "" := by
  constructor
  · rfl
  · intro b hb
    simp only [fallbackSummarise, List.mem_cons] at hb
    rcases hb with rfl | rfl | rfl | hb
    · decide
    · decide
    · by_cases hurl : input.url = ""
      · rw [hurl]
        decide
      · rw [if_neg hurl]
        exact str_append_ne_empty _ _ (by decide)
    · simp at hb

theorem summariseAttempts_bullets (isRefusal : String → Bool) (input : SummariseInput)
    (modelEngine : String) (outcomes : Nat → RequestOutcome) :
    ∀ (fuel attempt : Nat),
      ((summariseAttempts isRefusal input modelEngine outcomes attempt fuel).1).bullets.length = 3 ∧
      ∀ b ∈ ((summariseAttempts isRefusal input modelEngine outcomes attempt fuel).1).bullets,
        b ≠ "" := by
  intro fuel
  induction fuel with
  | zero => intro attempt; exact fallbackSummarise_bullets input
  | succ fuel ih =>
    intro attempt
    simp only [summariseAttempts]
    cases hres : attemptResult isRefusal (outcomes attempt) with
    | none => exact ih (attempt + 1)
    | some parsed =>
      have hparse : ∃ s, parseOpenCodeOutput s = some parsed := by
        cases houtcome : outcomes attempt with
        | err =>
          rw [houtcome] at hres
          simp only [attemptResult] at hres
          exact absurd hres (by simp)
        | text s =>
          rw [houtcome] at hres
          simp only [attemptResult] at hres
          by_cases hempty : s = ""
          · rw [if_pos hempty] at hres
            exact absurd hres (by simp)
          · rw [if_neg hempty] at hres
            by_cases href : isRefusal (normaliseModelOutput s) = true
            · rw [if_pos href] at hres
              exact absurd hres (by simp)
            · rw [if_neg href] at hres
              exact ⟨normaliseModelOutput s, hres⟩
      obtain ⟨s, hs⟩ := hparse
      exact parseOpenCodeOutput_bullets s parsed hs

theorem summariseAttempts_le (isRefusal : String → Bool) (input : SummariseInput)
    (modelEngine : String) (outcomes : Nat → RequestOutcome) :
    ∀ (fuel attempt : Nat),
      (summariseAttempts isRefusal input modelEngine outcomes attempt fuel).2 ≤ attempt + fuel := by
  intro fuel
  induction fuel with
  | zero => intro attempt; simp [summariseAttempts]
  | succ fuel ih =>
    intro attempt
    simp only [summariseAttempts]
    cases attemptResult isRefusal (outcomes attempt) with
    | some parsed =>
      show attempt + 1 ≤ attempt + (fuel + 1)
      omega
    | none =>
      exact le_trans (ih (attempt + 1)) (by omega)

theorem summariseAttempts_all_fail (isRefusal : String → Bool) (input : SummariseInput)
    (modelEngine : String) (outcomes : Nat → RequestOutcome) :
    ∀ (fuel attempt : Nat),
      (∀ i, attempt ≤ i → i < attempt + fuel → attemptResult isRefusal (outcomes i) = none) →
      (summariseAttempts isRefusal input modelEngine outcomes attempt fuel).1 =
        fallbackSummarise input := by
  intro fuel
  induction fuel with
  | zero => intro attempt _; rfl
  | succ fuel ih =>
    intro attempt hall
    have h0 : attemptResult isRefusal (outcomes attempt) = none :=
      hall attempt (le_refl _) (by omega)
    simp only [summariseAttempts, h0]
    exact ih (attempt + 1) (fun i h1 h2 => hall i (by omega) (by omega))

/-- C5: `summariseWithOC` makes at most the configured number of attempts
(`SUMMARY_RETRIES` clamped to `[1, 5]`, default 3), always returns exactly
one `SummariseResult` (the function is total — no exception escapes the
loop), and when every attempt within the budget fails to yield a parsed
summary it returns the deterministic extractive fallback built from the
title and URL. -/
theorem claim_C5_summarise_retry_bound (isRefusal : String → Bool) (input : SummariseInput)
    (modelEngine : String) (env : Option Int) (outcomes : Nat → RequestOutcome) :
    (summariseWithOC isRefusal input modelEngine env outcomes).2 ≤ maxAttemptsFor env ∧
    maxAttemptsFor none = 3 ∧
    ((∀ i, i < maxAttemptsFor env → attemptResult isRefusal (outcomes i) = none) →
      (summariseWithOC isRefusal input modelEngine env outcomes).1 = fallbackSummarise input) := by
  refine ⟨?_, rfl, ?_⟩
  · have := summariseAttempts_le isRefusal input modelEngine outcomes (maxAttemptsFor env) 0
    simpa using this
  · intro hall
    exact summariseAttempts_all_fail isRefusal input modelEngine outcomes
      (maxAttemptsFor env) 0 (fun i _ h2 => hall i (by omega))

/-- Witness for C5 at a concrete input where every attempt errors: at most 3
attempts are made and the fallback is returned. -/
theorem claim_C5_witness :
    (summariseWithOC (fun _ => false) inputW "model-x" none (fun _ => RequestOutcome.err)).2 ≤
      maxAttemptsFor none ∧
    maxAttemptsFor none = 3 ∧
    ((∀ i, i < maxAttemptsFor none →
        attemptResult (fun _ => false) ((fun _ => RequestOutcome.err) i) = none) →
      (summariseWithOC (fun _ => false) inputW "model-x" none (fun _ => RequestOutcome.err)).1 =
        fallbackSummarise inputW) :=
  claim_C5_summarise_retry_bound (fun _ => false) inputW "model-x" none
    (fun _ => RequestOutcome.err)

/-- C6: every `SummaryResult` produced by the summarisation stage carries
exactly three nonempty bullets — on every successful `parseOpenCodeOutput`
run, on the fallback path, and therefore for whatever the retry loop
returns. -/
theorem claim_C6_three_bullets :
    (∀ (raw : String) (p : ParsedSummary), parseOpenCodeOutput raw = some p →
      p.bullets.length = 3 ∧ ∀ b ∈ p.bullets, b ≠ "") ∧
    (∀ input : SummariseInput, (fallbackSummarise input).bullets.length = 3 ∧
      ∀ b ∈ (fallbackSummarise input).bullets, b ≠ "") ∧
    (∀ (isRefusal : String → Bool) (input : SummariseInput) (modelEngine : String)
      (env : Option Int) (outcomes : Nat → RequestOutcome),
      ((summariseWithOC isRefusal input modelEngine env outcomes).1).bullets.length = 3 ∧
      ∀ b ∈ ((summariseWithOC isRefusal input modelEngine env outcomes).1).bullets, b ≠ "") :=
  ⟨parseOpenCodeOutput_bullets, fallbackSummarise_bullets,
    fun isRefusal input modelEngine env outcomes =>
      summariseAttempts_bullets isRefusal input modelEngine outcomes (maxAttemptsFor env) 0⟩

/-- Witness for C6: the parse-success clause applied at a concrete model
output that parses. -/
theorem claim_C6_witness :
    parseOpenCodeOutput "ABSTRACT: Alpha.\n- one\n- two\n- three" =
      some ⟨"Alpha.", ["one", "two", "three"], none⟩ ∧
    ((⟨"Alpha.", ["one", "two", "three"], none⟩ : ParsedSummary).bullets.length = 3 ∧
      ∀ b ∈ (⟨"Alpha.", ["one", "two", "three"], none⟩ : ParsedSummary).bullets, b ≠ "") :=
  ⟨by decide, claim_C6_three_bullets.1 "ABSTRACT: Alpha.\n- one\n- two\n- three" _ (by decide)⟩

/-- C8: for every story retained by ingestion (such stories always carry a
nonempty URL), hydration keeps the normalised embedded content untouched
when it reaches the configured minimum length; below the minimum it resolves
through the page fetch, and on any fetch failure — thrown/timed-out request,
non-OK status, wrong content type, or a page whose normalised text is empty
— the result is exactly the original normalised embedded content.  The
function is total: hydration never raises and never discards the story. -/
theorem claim_C8_hydration_fallback (htmlToText : String → String) (minChars : Nat)
    (dp : String → Option Int) (fp : String → String) (seen : List String)
    (start endT : Int) (maxN : Nat) (ig : Bool) (items : List FeedItem) (item : FeedItem)
    (hmem : item ∈ pickFreshItems dp fp seen start endT maxN ig items)
    (outcome : FetchOutcome) :
    (minChars ≤ strLen (normaliseContent htmlToText item.rawContent) →
      resolveItemText htmlToText minChars item outcome =
        normaliseContent htmlToText item.rawContent) ∧
    (strLen (normaliseContent htmlToText item.rawContent) < minChars →
      (outcome = FetchOutcome.fail →
        resolveItemText htmlToText minChars item outcome =
          normaliseContent htmlToText item.rawContent) ∧
      (∀ html, outcome = FetchOutcome.page html →
        strLen (normaliseContent htmlToText html) = 0 →
        resolveItemText htmlToText minChars item outcome =
          normaliseContent htmlToText item.rawContent) ∧
      (∀ html, outcome = FetchOutcome.page html →
        0 < strLen (normaliseContent htmlToText html) →
        resolveItemText htmlToText minChars item outcome =
          normaliseContent htmlToText html)) := by
  have hurl : item.url ≠ "" :=
    pickFreshItems_url_ne dp fp seen start endT maxN ig items item hmem
  constructor
  · intro hlong
    simp [resolveItemText, hlong]
  · intro hshort
    have hnotle : ¬ minChars ≤ strLen (normaliseContent htmlToText item.rawContent) := by
      omega
    refine ⟨?_, ?_, ?_⟩
    · intro hfail
      subst hfail
      simp [resolveItemText, hnotle, hurl, fetchArticleContent]
    · intro html hpage hempty
      subst hpage
      simp [resolveItemText, hnotle, hurl, fetchArticleContent, hempty]
    · intro html hpage hpos
      subst hpage
      simp [resolveItemText, hnotle, hurl, fetchArticleContent, hpos]

/-- Witness for C8: a retained story with short embedded content whose page
fetch fails keeps its original normalised content. -/
theorem claim_C8_witness :
    resolveItemText id 80 itemFresh FetchOutcome.fail =
      normaliseContent id itemFresh.rawContent :=
  ((claim_C8_hydration_fallback id 80 dpC2 id [] 100 200 5 false [itemFresh] itemFresh
    (by decide) FetchOutcome.fail).2 (by decide)).1 rfl

/-- C7: at most `MAX_BRIEFING_ATTEMPTS = 2` generation attempts are made;
when the QA validator reports a nonempty error list on both attempts, no
third attempt happens, the second draft is still the one accepted, and every
blocking QA error of the final attempt is surfaced as a `QA error: …` flag
on the finished edition. -/
theorem claim_C7_briefing_attempts {α : Type} (gen : Nat → α) (validate : α → QAReport) :
    (runBriefingAttempts gen validate).attempts ≤ MAX_BRIEFING_ATTEMPTS ∧
    (((validate (gen 1)).errors ≠ [] ∧ (validate (gen 2)).errors ≠ []) →
      (runBriefingAttempts gen validate).attempts = 2 ∧
      (runBriefingAttempts gen validate).accepted = none ∧
      finishBriefing (runBriefingAttempts gen validate) =
        some (gen 2, ((validate (gen 2)).errors.map (fun e => "QA error: " ++ e)) ++
          (validate (gen 2)).warnings)) := by
  constructor
  · by_cases h1 : (validate (gen 1)).errors = []
    · simp [runBriefingAttempts, briefingAttemptLoop, MAX_BRIEFING_ATTEMPTS, h1]
    · by_cases h2 : (validate (gen 2)).errors = []
      · simp [runBriefingAttempts, briefingAttemptLoop, MAX_BRIEFING_ATTEMPTS, h1, h2]
      · simp [runBriefingAttempts, briefingAttemptLoop, MAX_BRIEFING_ATTEMPTS, h1, h2]
  · intro ⟨h1, h2⟩
    refine ⟨?_, ?_, ?_⟩ <;>
      simp [runBriefingAttempts, briefingAttemptLoop, MAX_BRIEFING_ATTEMPTS,
        finishBriefing, h1, h2]

/-- Witness for C7: with a validator that always reports a blocking error,
exactly two attempts are made, the second draft is accepted anyway and the
error surfaces as a `QA error: …` flag followed by the warnings. -/
theorem claim_C7_witness :
    (runBriefingAttempts genC7 valC7).attempts = 2 ∧
    (runBriefingAttempts genC7 valC7).accepted = none ∧
    finishBriefing (runBriefingAttempts genC7 valC7) =
      some (genC7 2, ((valC7 (genC7 2)).errors.map (fun e => "QA error: " ++ e)) ++
        (valC7 (genC7 2)).warnings) :=
  (claim_C7_briefing_attempts genC7 valC7).2 ⟨by decide, by decide⟩

/-- C1 (amended): with zero pending stories the run stops and writes
nothing; with a positive count below the minimum-valid-articles floor the
run falls back to a prior edition when the 3-day lookback finds one, and
otherwise CONTINUES with the explicit insufficient-content QA flag rather
than aborting; at or above the floor it continues normally. -/
theorem claim_C1_insufficient_content (hasEdition : Int → Bool) (date : Int)
    (pendingCount : Nat) :
    (pendingCount = 0 → editionDecision hasEdition date pendingCount = .noItems) ∧
    (0 < pendingCount → pendingCount < MIN_VALID_ARTICLES →
      loadFallbackEdition hasEdition date = none →
      editionDecision hasEdition date pendingCount = .proceed true) ∧
    (0 < pendingCount → pendingCount < MIN_VALID_ARTICLES →
      ∀ slug, loadFallbackEdition hasEdition date = some slug →
        editionDecision hasEdition date pendingCount = .fallbackWritten slug) ∧
    (MIN_VALID_ARTICLES ≤ pendingCount →
      editionDecision hasEdition date pendingCount = .proceed false) := by
  refine ⟨?_, ?_, ?_, ?_⟩
  · intro h
    simp [editionDecision, h]
  · intro h1 h2 h3
    simp [editionDecision, h3, h2]
    omega
  · intro h1 h2 slug h3
    simp [editionDecision, h3, h2]
    omega
  · intro h
    have h0 : pendingCount ≠ 0 := by
      have : 0 < MIN_VALID_ARTICLES := by decide
      omega
    have h5 : ¬ pendingCount < MIN_VALID_ARTICLES := by omega
    simp [editionDecision, h0, h5]

/-- C1 counterexample: two pending stories (below the floor of 5) and no
edition in the 3-day lookback — the run does not abort: it proceeds with the
insufficient-content QA flag, and the only abort-with-no-file outcome
(`noItems`) is not taken. -/
theorem claim_C1_counterexample :
    loadFallbackEdition (fun _ => false) 0 = none ∧
    editionDecision (fun _ => false) 0 2 = EditionOutcome.proceed true ∧
    editionDecision (fun _ => false) 0 2 ≠ EditionOutcome.noItems := by
  refine ⟨by decide, by decide, by decide⟩

/-- Witness for C1 at concrete inputs: three stories, no fallback edition →
the run proceeds with the insufficient-content flag. -/
theorem claim_C1_witness :
    editionDecision (fun _ => false) 0 3 = EditionOutcome.proceed true :=
  (claim_C1_insufficient_content (fun _ => false) 0 3).2.1 (by decide) (by decide) (by decide)

end AiFeedDigest
